import Mathlib

/-!
Verification of the perceptual logo quantization engine of the NHLScoreboard
repository (`tools/logo_builder/logo_quantize.py` and the RGB565 packing helper
of `tools/logo_builder/build_logos.py`).

The embedding follows the Python source.  Real (float) arithmetic is modelled
exactly over `ℚ`/`Nat` (the CIE LUT uses exact rational arithmetic with
Python's round-half-to-even); the external library functions that the engine
merely calls — `rgb2lab`, the KD-tree query, the PIL enhancement and resize
operators — are opaque parameters, bundled in context structures, since the
claims under study are independent of their numeric values.
-/

/-- Python's `round` (round half to even, "banker's rounding") applied to the
exact rational `n / d`, for natural `n d`. -/
def natRoundHalfEven (n d : Nat) : Nat :=
  let q := n / d
  let r := n % d
  if 2 * r < d then q
  else if d < 2 * r then q + 1
  else if q % 2 = 0 then q else q + 1

/-- One entry of the CIE 1931 lightness LUT of `_generate_cie_lut` in
`logo_quantize.py`: `L = i*100/255`; `Y = L/902.3` when `L ≤ 8`, else
`Y = ((L+16)/116)^3`; result `min(max_out, round(Y*max_out))`.
The branch test `i*100/255 ≤ 8` is `i*100 ≤ 8*255`; in the first branch
`Y*max_out = i*1000*max_out / (255*9023)` and in the second
`Y*max_out = (100*i+4080)^3*max_out / 29580^3`, both exact rationals. -/
def cieLut (maxOut i : Nat) : Nat :=
  if i * 100 ≤ 8 * 255 then
    min maxOut (natRoundHalfEven (i * 1000 * maxOut) (255 * 9023))
  else
    min maxOut (natRoundHalfEven
      ((100 * i + 4080) * (100 * i + 4080) * (100 * i + 4080) * maxOut)
      (29580 * 29580 * 29580))

/-- `CIE_LUT_4BIT[i]`, the 4-bit LUT (`_generate_cie_lut(15)`). -/
def lut4 (i : Nat) : Nat := cieLut 15 i

/-- ESP32 `color565to888` reconstruction of a 5-bit channel, as written in
`_build_hardware_palette`: `r8 = (r5 << 3) | (r5 >> 2)` (also used for the
blue channel). -/
def reconR (v : Nat) : Nat := (v <<< 3) ||| (v >>> 2)

/-- ESP32 `color565to888` reconstruction of the 6-bit green channel:
`g8 = (g6 << 2) | (g6 >> 4)`. -/
def reconG (v : Nat) : Nat := (v <<< 2) ||| (v >>> 4)

/-- The CIE output triple of one `(r5, g6, b5)` combination:
`(CIE_LUT_4BIT[r8], CIE_LUT_4BIT[g8], CIE_LUT_4BIT[b8])`. -/
def keyOf (t : Nat × Nat × Nat) : Nat × Nat × Nat :=
  (lut4 (reconR t.1), lut4 (reconG t.2.1), lut4 (reconR t.2.2))

/-- The RGB888 reconstruction `(r8, g8, b8)` of one `(r5, g6, b5)`. -/
def reconOf (t : Nat × Nat × Nat) : Nat × Nat × Nat :=
  (reconR t.1, reconG t.2.1, reconR t.2.2)

/-- The enumeration order of `_build_hardware_palette`: `r5` major, `g6` mid,
`b5` minor, each ascending from 0. -/
def enum565 : List (Nat × Nat × Nat) :=
  (List.range 32).flatMap fun r5 =>
    (List.range 64).flatMap fun g6 =>
      (List.range 32).map fun b5 => (r5, g6, b5)

/-- The inner two loops of the enumeration, as `(g6, b5)` pairs in visit
order (a regrouping of `enum565` used to reason about the nesting). -/
def pairsGB : List (Nat × Nat) :=
  (List.range 64).flatMap fun g6 => (List.range 32).map fun b5 => (g6, b5)

/-- Association-list lookup (first binding wins), modelling Python dict
access; Python dicts preserve insertion order. -/
def alookup {α β : Type} [DecidableEq α] (k : α) : List (α × β) → Option β
  | [] => none
  | (k2, v) :: rest => if k = k2 then some v else alookup k rest

/-- One iteration of the `seen` dict construction:
`if key not in seen: seen[key] = (r8, g8, b8)`. -/
def insStep (s : List ((Nat × Nat × Nat) × (Nat × Nat × Nat))) (t : Nat × Nat × Nat) :
    List ((Nat × Nat × Nat) × (Nat × Nat × Nat)) :=
  if (alookup (keyOf t) s).isSome then s else s ++ [(keyOf t, reconOf t)]

/-- The fully built `seen` dict of `_build_hardware_palette`. -/
def seenFold : List ((Nat × Nat × Nat) × (Nat × Nat × Nat)) :=
  enum565.foldl insStep []

/-- Lexicographic `≤` on triples — the order Python's `sorted` uses on
3-tuples of ints. -/
def keyLE (a b : Nat × Nat × Nat) : Prop :=
  a.1 < b.1 ∨ (a.1 = b.1 ∧ (a.2.1 < b.2.1 ∨ (a.2.1 = b.2.1 ∧ a.2.2 ≤ b.2.2)))

/-- Strict lexicographic order on triples. -/
def keyLT (a b : Nat × Nat × Nat) : Prop :=
  a.1 < b.1 ∨ (a.1 = b.1 ∧ (a.2.1 < b.2.1 ∨ (a.2.1 = b.2.1 ∧ a.2.2 < b.2.2)))

instance decKeyLE : DecidableRel keyLE := fun a b => by
  unfold keyLE; exact inferInstance

instance decKeyLT : DecidableRel keyLT := fun a b => by
  unfold keyLT; exact inferInstance

instance totalKeyLE : IsTotal (Nat × Nat × Nat) keyLE :=
  ⟨by intro a b; unfold keyLE; omega⟩

instance transKeyLE : IsTrans (Nat × Nat × Nat) keyLE :=
  ⟨by intro a b c; unfold keyLE; omega⟩

/-- `keys = sorted(seen.keys())` of `_build_hardware_palette`. -/
def paletteKeys : List (Nat × Nat × Nat) :=
  List.insertionSort keyLE (seenFold.map Prod.fst)

/-- `palette_input = [seen[k] for k in keys]`: the RGB888 representatives, in
ascending CIE-key order. -/
def paletteInput : List (Nat × Nat × Nat) :=
  paletteKeys.filterMap fun k => alookup k seenFold

/-- First 5-bit red/blue value whose CIE output level is `k` (the channel
generalization of "first found in enumeration order"). -/
def firstR (k : Nat) : Option Nat :=
  (List.range 32).find? fun v => decide (lut4 (reconR v) = k)

/-- First 6-bit green value whose CIE output level is `k`. -/
def firstG (k : Nat) : Option Nat :=
  (List.range 64).find? fun v => decide (lut4 (reconG v) = k)

/-- An 8-bit RGB pixel value (each component is in 0..255 for real images). -/
abbrev RGB := Nat × Nat × Nat

/-- A CIELAB coordinate `(L, a, b)`, modelled over exact rationals. -/
abbrev Lab := ℚ × ℚ × ℚ

/-- An RGB raster image: height, width, and pixel accessor. -/
structure Img where
  h : Nat
  w : Nat
  px : Nat → Nat → RGB

/-- An RGBA raster image (`px` gives `(r, g, b, a)`), together with its PIL
mode flag (`isRGBA` is true exactly when `image.mode == "RGBA"`). -/
structure ImgA where
  h : Nat
  w : Nat
  px : Nat → Nat → Nat × Nat × Nat × Nat
  isRGBA : Bool

/-- The opaque float components of the quantization engine:
`labOf` models `rgb2lab` applied to one 8-bit pixel (after the `/255`
normalization), `palLab` models the `palette_lab` array (CIELAB of the
perceived CIE outputs), and `nearest` models `tree.query`, returning the
index of the nearest palette entry in CIELAB space. -/
structure Ctx where
  labOf : RGB → Lab
  palLab : Nat → Lab
  nearest : Lab → Nat

/-- `quantize_perceptual` of `logo_quantize.py`: per pixel, nearest-palette
match in CIELAB, then the near-black override (`L < 5` → black) is written,
then the near-white override (`L > 95 ∧ |a| < 5 ∧ |b| < 5` → white) is
written; the later write wins (the two conditions are disjoint). -/
def quantizePerceptual (C : Ctx) (img : Img) : Img :=
  { h := img.h, w := img.w,
    px := fun y x =>
      let q := C.labOf (img.px y x)
      let matched := paletteInput.getD (C.nearest q) (0, 0, 0)
      if 95 < q.1 ∧ |q.2.1| < 5 ∧ |q.2.2| < 5 then (255, 255, 255)
      else if q.1 < 5 then (0, 0, 0)
      else matched }

/-- Componentwise addition on CIELAB triples. -/
def labAdd (a e : Lab) : Lab := (a.1 + e.1, a.2.1 + e.2.1, a.2.2 + e.2.2)

/-- Componentwise subtraction on CIELAB triples. -/
def labSub (a e : Lab) : Lab := (a.1 - e.1, a.2.1 - e.2.1, a.2.2 - e.2.2)

/-- Scalar multiplication on CIELAB triples. -/
def labSmul (c : ℚ) (e : Lab) : Lab := (c * e.1, c * e.2.1, c * e.2.2)

/-- In-place addition `lab[y, x] += e` on a CIELAB buffer. -/
def bump (g : Nat → Nat → Lab) (y x : Nat) (e : Lab) : Nat → Nat → Lab :=
  fun y2 x2 => if y2 = y ∧ x2 = x then labAdd (g y2 x2) e else g y2 x2

/-- In-place write `res[y, x] = v` on a result buffer. -/
def writePx (r : Nat → Nat → RGB) (y x : Nat) (v : RGB) : Nat → Nat → RGB :=
  fun y2 x2 => if y2 = y ∧ x2 = x then v else r y2 x2

/-- The mutable state of `quantize_perceptual_dithered`: the in-flight CIELAB
buffer `lab` and the result array `res`. -/
structure DSt where
  lab : Nat → Nat → Lab
  res : Nat → Nat → RGB

/-- The body of the double loop of `quantize_perceptual_dithered`, for pixel
`(y, x)`: near-black/near-white overrides (which `continue`, diffusing
nothing), otherwise nearest match, write the matched palette RGB, and
Floyd–Steinberg error diffusion with weights 7/16, 3/16, 5/16, 1/16, each
neighbor write guarded exactly as in the source. -/
def ditherStep (C : Ctx) (strength : ℚ) (h w : Nat) (s : DSt) (yx : Nat × Nat) : DSt :=
  let y := yx.1
  let x := yx.2
  let q := s.lab y x
  if q.1 < 5 then { s with res := writePx s.res y x (0, 0, 0) }
  else if 95 < q.1 ∧ |q.2.1| < 5 ∧ |q.2.2| < 5 then
    { s with res := writePx s.res y x (255, 255, 255) }
  else
    let i := C.nearest q
    let err := labSmul strength (labSub q (C.palLab i))
    let l1 := if x + 1 < w then bump s.lab y (x + 1) (labSmul (7/16) err) else s.lab
    let l2 :=
      if y + 1 < h then
        let la := if 0 < x then bump l1 (y + 1) (x - 1) (labSmul (3/16) err) else l1
        let lb := bump la (y + 1) x (labSmul (5/16) err)
        if x + 1 < w then bump lb (y + 1) (x + 1) (labSmul (1/16) err) else lb
      else l1
    { lab := l2, res := writePx s.res y x (paletteInput.getD i (0, 0, 0)) }

/-- Row-major pixel visit order: `for y in range(h): for x in range(w)`. -/
def rowMajor (h w : Nat) : List (Nat × Nat) :=
  (List.range h).flatMap fun y => (List.range w).map fun x => (y, x)

/-- The initial dither state: `lab = rgb2lab(arr)` and
`result = np.zeros((h, w, 3), dtype=np.uint8)`. -/
def ditherInit (C : Ctx) (img : Img) : DSt :=
  { lab := fun y x => C.labOf (img.px y x), res := fun _ _ => (0, 0, 0) }

/-- `quantize_perceptual_dithered` of `logo_quantize.py`. -/
def ditherQuantize (C : Ctx) (strength : ℚ) (img : Img) : Img :=
  { h := img.h, w := img.w,
    px := ((rowMajor img.h img.w).foldl (ditherStep C strength img.h img.w)
      (ditherInit C img)).res }

/-- PIL's `MULDIV255` byte blend primitive: `t = a*b + 128; ((t >> 8) + t) >> 8`. -/
def muldiv255 (a b : Nat) : Nat :=
  let t := a * b + 128
  ((t >>> 8) + t) >>> 8

/-- PIL `Image.paste` blending with an 8-bit ("L") mask, per channel:
`out = BLEND(mask, background, source)`. -/
def blendPaste (bg fg m : Nat) : Nat := muldiv255 bg (255 - m) + muldiv255 fg m

/-- `rgba_to_rgb` of `logo_quantize.py`: a black RGB background; an RGBA image
is pasted with its alpha channel as mask, any other image is pasted plainly
(a plain paste copies the pixel values). -/
def rgbaToRgb (img : ImgA) : Img :=
  { h := img.h, w := img.w,
    px := fun y x =>
      let p := img.px y x
      if img.isRGBA then
        (blendPaste 0 p.1 p.2.2.2, blendPaste 0 p.2.1 p.2.2.2, blendPaste 0 p.2.2.1 p.2.2.2)
      else (p.1, p.2.1, p.2.2.1) }

/-- The `TEAM_COLOR_FIXES` table of `logo_quantize.py`. -/
def teamColorFixes : List (String × String) :=
  [("SVK", "red"), ("LAT", "red"), ("ITA", "red"), ("DEN", "red"),
   ("SUI", "red"), ("FRA", "red"), ("CAN", "red"), ("USA", "red"), ("CZE", "red"),
   ("NJD", "red"), ("WSH", "red"), ("SEA", "red"), ("WPG", "red"),
   ("CBJ", "red"), ("MTL", "red"),
   ("FLA", "red"), ("CAR", "red"), ("NYR", "red"), ("MIN", "red"),
   ("PHI", "orange"), ("NYI", "orange"), ("EDM", "orange"),
   ("DAL", "green_boost")]

/-- `_apply_pre_quant_fix`: looks up the rule and returns the image unchanged
(no pre-quantization fix is currently active). -/
def applyPreQuantFix (img : Img) (team : String) : Img :=
  match alookup team teamColorFixes with
  | none => img
  | some _rule => img

/-- The per-pixel `red` rule of `_apply_post_quant_fix`: warm pixels
(`R ≥ 70`, `R−G > 15`, `R−B > 15`) get `G = B = 0` unless near-white
(`min(R,G,B) ≥ 150`), in which case they become pure white. -/
def redFix (p : RGB) : RGB :=
  let warm := 70 ≤ p.1 ∧ 15 < (p.1 : Int) - (p.2.1 : Int) ∧ 15 < (p.1 : Int) - (p.2.2 : Int)
  let nearWhite := 150 ≤ min (min p.1 p.2.1) p.2.2
  if warm ∧ ¬nearWhite then (p.1, 0, 0)
  else if warm ∧ nearWhite then (255, 255, 255)
  else p

/-- The per-pixel `orange` rule of `_apply_post_quant_fix`: pink pixels
(`R ≥ 80`, `B ≥ 40`, `R > B`) get `B = 0` unless near-white, in which case
they become pure white. -/
def orangeFix (p : RGB) : RGB :=
  let pink := 80 ≤ p.1 ∧ 40 ≤ p.2.2 ∧ p.2.2 < p.1
  let nearWhite := 150 ≤ min (min p.1 p.2.1) p.2.2
  if pink ∧ ¬nearWhite then (p.1, p.2.1, 0)
  else if pink ∧ nearWhite then (255, 255, 255)
  else p

/-- The memoized reference green of the `green_boost` rule: the palette RGB888
that the ITA flag green `(0, 146, 70)` quantizes to. -/
def refGreen (C : Ctx) : RGB :=
  paletteInput.getD (C.nearest (C.labOf (0, 146, 70))) (0, 0, 0)

/-- The per-pixel `green_boost` rule of `_apply_post_quant_fix`:
green-dominant, not-effectively-black, not-near-white pixels are replaced by
the reference green. -/
def greenBoostFix (C : Ctx) (p : RGB) : RGB :=
  let nearWhite := 150 ≤ min (min p.1 p.2.1) p.2.2
  let notBlack := 15 < p.1 + p.2.1 + p.2.2
  let isGreen := p.1 ≤ p.2.1 ∧ p.2.2 ≤ p.2.1 ∧ notBlack ∧ ¬nearWhite
  if isGreen then refGreen C else p

/-- Pointwise application of a pixel function (NumPy masked assignment acts
pointwise on the array). -/
def mapImg (f : RGB → RGB) (img : Img) : Img :=
  { h := img.h, w := img.w, px := fun y x => f (img.px y x) }

/-- `_apply_post_quant_fix` of `logo_quantize.py`. -/
def applyPostQuantFix (C : Ctx) (img : Img) (team : String) : Img :=
  match alookup team teamColorFixes with
  | none => img
  | some rule =>
    if rule = "red" then mapImg redFix img
    else if rule = "orange" then mapImg orangeFix img
    else if rule = "green_boost" then mapImg (greenBoostFix C) img
    else img

/-- The opaque PIL stages of `process_logo_perceptual`: the three
`ImageEnhance` operators and the BOX-filter `resize`, which by PIL's contract
returns an image of exactly the requested size. -/
structure Env where
  contrastEnhance : Img → Img
  colorEnhance : Img → Img
  sharpnessEnhance : Img → Img
  resize : Img → Nat → Img
  resizeH : ∀ i t, (resize i t).h = t
  resizeW : ∀ i t, (resize i t).w = t

/-- `process_logo_perceptual` of `logo_quantize.py`: RGBA flatten, enhance
(contrast, then color, then sharpness), BOX downscale to
`target_size × target_size`, optional pre-fix, quantization (dithered with
the default strength 0.4 when requested), optional post-fix. -/
def processLogoPerceptual (C : Ctx) (E : Env) (imgA : ImgA) (targetSize : Nat)
    (dither : Bool) (team : Option String) : Img :=
  let img1 := rgbaToRgb imgA
  let img2 := E.sharpnessEnhance (E.colorEnhance (E.contrastEnhance img1))
  let small := E.resize img2 targetSize
  let small2 := match team with
    | some t => applyPreQuantFix small t
    | none => small
  let q := if dither then ditherQuantize C (2/5) small2 else quantizePerceptual C small2
  match team with
  | some t => applyPostQuantFix C q t
  | none => q

/-- The set of pixel values claim C1 allows in the final output: a palette
entry, pure black, pure white, or the memoized reference green. -/
def allowedOut (C : Ctx) (p : RGB) : Prop :=
  p ∈ paletteInput ∨ p = (0, 0, 0) ∨ p = (255, 255, 255) ∨ p = refGreen C

/-- The 16-bit packed value of `rgb_to_rgb565_le` in `build_logos.py`:
`((r & 0xF8) << 8) | ((g & 0xFC) << 3) | (b >> 3)`. -/
def pack565 (p : RGB) : Nat :=
  (((p.1 &&& 0xF8) <<< 8) ||| ((p.2.1 &&& 0xFC) <<< 3)) ||| (p.2.2 >>> 3)

/-- The two little-endian bytes `rgb_to_rgb565_le` actually writes. -/
def rgb565leBytes (p : RGB) : Nat × Nat :=
  (pack565 p &&& 0xFF, (pack565 p >>> 8) &&& 0xFF)

/-- Re-expansion of a packed RGB565 word to RGB888 by the hardware's
bit-replication (`color565to888`). -/
def unpack565 (v : Nat) : RGB :=
  (reconR ((v >>> 11) &&& 31), reconG ((v >>> 5) &&& 63), reconR (v &&& 31))

/-- The Floyd–Steinberg kernel as the spec words it: offsets `(dy, dx)` with
weights 7/16 (right), 3/16 (below-left), 5/16 (below), 1/16 (below-right). -/
def fsKernel : List (Int × Int × ℚ) :=
  [(0, 1, 7/16), (1, -1, 3/16), (1, 0, 5/16), (1, 1, 1/16)]

/-- Spec-worded error diffusion: add `weight * err` to each kernel neighbor,
clamped to the image bounds. -/
def diffuseSpec (g : Nat → Nat → Lab) (h w : Nat) (y x : Nat) (err : Lab) :
    Nat → Nat → Lab :=
  fsKernel.foldl (fun acc k =>
    let ny : Int := (y : Int) + k.1
    let nx : Int := (x : Int) + k.2.1
    if 0 ≤ ny ∧ ny < (h : Int) ∧ 0 ≤ nx ∧ nx < (w : Int) then
      bump acc ny.toNat nx.toNat (labSmul k.2.2 err)
    else acc) g

/-- The per-pixel dither step transcribed from the spec's sentence: the same
overrides (skipping diffusion), otherwise nearest match, error = (query −
matched) × strength, diffused by `diffuseSpec`. -/
def ditherStepSpec (C : Ctx) (strength : ℚ) (h w : Nat) (s : DSt) (yx : Nat × Nat) : DSt :=
  let y := yx.1
  let x := yx.2
  let q := s.lab y x
  if q.1 < 5 then { s with res := writePx s.res y x (0, 0, 0) }
  else if 95 < q.1 ∧ |q.2.1| < 5 ∧ |q.2.2| < 5 then
    { s with res := writePx s.res y x (255, 255, 255) }
  else
    let i := C.nearest q
    let err := labSmul strength (labSub q (C.palLab i))
    { lab := diffuseSpec s.lab h w y x err,
      res := writePx s.res y x (paletteInput.getD i (0, 0, 0)) }

/-- A trivial concrete quantization context, used by the closed instantiation
theorems. -/
def ctx0 : Ctx :=
  { labOf := fun _ => (0, 0, 0), palLab := fun _ => (0, 0, 0), nearest := fun _ => 0 }

/-- A concrete environment whose resize returns a black image of the requested
size. -/
def env0 : Env :=
  { contrastEnhance := id, colorEnhance := id, sharpnessEnhance := id,
    resize := fun _ t => { h := t, w := t, px := fun _ _ => (0, 0, 0) },
    resizeH := fun _ _ => rfl,
    resizeW := fun _ _ => rfl }

/-- A concrete 1×1 RGBA image (a fully transparent pixel). -/
def imgA0 : ImgA :=
  { h := 1, w := 1, px := fun _ _ => (10, 20, 30, 0), isRGBA := true }

/-- A concrete context whose lab conversion lands in the non-override region
(L = 50). -/
def ctx50 : Ctx :=
  { labOf := fun _ => (50, 0, 0), palLab := fun _ => (0, 0, 0), nearest := fun _ => 0 }

/-- A concrete 1×1 all-black RGB image. -/
def imgBlack1 : Img := { h := 1, w := 1, px := fun _ _ => (0, 0, 0) }

/-! ## Infrastructure lemmas about the palette construction -/

theorem alookup_append {α β : Type} [DecidableEq α] (k : α) (l1 l2 : List (α × β)) :
    alookup k (l1 ++ l2) = (alookup k l1).or (alookup k l2) := by
  induction l1 with
  | nil => simp [alookup, Option.or]
  | cons p rest ih =>
    obtain ⟨k2, v⟩ := p
    by_cases hk : k = k2
    · simp [alookup, hk, Option.or]
    · simp [alookup, hk, ih]

theorem alookup_isSome {α β : Type} [DecidableEq α] (k : α) (l : List (α × β)) :
    (alookup k l).isSome = true ↔ k ∈ l.map Prod.fst := by
  induction l with
  | nil => simp [alookup]
  | cons p rest ih =>
    obtain ⟨k2, v⟩ := p
    by_cases hk : k = k2
    · simp [alookup, hk]
    · simp [alookup, hk, ih]

theorem alookup_insStep_ne (s : List ((Nat × Nat × Nat) × (Nat × Nat × Nat)))
    (t : Nat × Nat × Nat) (k : Nat × Nat × Nat) (hk : keyOf t ≠ k) :
    alookup k (insStep s t) = alookup k s := by
  unfold insStep
  by_cases h : (alookup (keyOf t) s).isSome = true
  · rw [if_pos h]
  · rw [if_neg h, alookup_append]
    have h1 : alookup k [(keyOf t, reconOf t)] = (none : Option (Nat × Nat × Nat)) := by
      have h2 : k ≠ keyOf t := fun hh => hk hh.symm
      simp [alookup, h2]
    rw [h1, Option.or_none]

theorem foldl_insStep_alookup (l : List (Nat × Nat × Nat)) :
    ∀ (acc : List ((Nat × Nat × Nat) × (Nat × Nat × Nat))) (k : Nat × Nat × Nat),
    alookup k (l.foldl insStep acc) =
      (alookup k acc).or ((l.find? fun t => decide (keyOf t = k)).map reconOf) := by
  induction l with
  | nil => intro acc k; simp [Option.or_none]
  | cons t rest ih =>
    intro acc k
    by_cases hk : keyOf t = k
    · subst hk
      have hfind : ((t :: rest).find? fun t2 => decide (keyOf t2 = keyOf t)) = some t := by
        rw [List.find?_cons]
        simp
      rw [List.foldl_cons, ih, hfind]
      cases hacc : alookup (keyOf t) acc with
      | some v =>
        have hstep : insStep acc t = acc := by unfold insStep; simp [hacc]
        rw [hstep, hacc]
        rfl
      | none =>
        have hstep : insStep acc t = acc ++ [(keyOf t, reconOf t)] := by
          unfold insStep; simp [hacc]
        rw [hstep, alookup_append, hacc]
        have h1 : alookup (keyOf t) [(keyOf t, reconOf t)] = some (reconOf t) := by
          simp [alookup]
        rw [h1]
        rfl
    · have hfind : ((t :: rest).find? fun t2 => decide (keyOf t2 = k)) =
          rest.find? fun t2 => decide (keyOf t2 = k) := by
        rw [List.find?_cons]
        simp [hk]
      rw [List.foldl_cons, ih, hfind, alookup_insStep_ne acc t k hk]

theorem alookup_seenFold (k : Nat × Nat × Nat) :
    alookup k seenFold = ((enum565.find? fun t => decide (keyOf t = k)).map reconOf) := by
  unfold seenFold
  rw [foldl_insStep_alookup]
  rfl

theorem foldl_insStep_nodup (l : List (Nat × Nat × Nat)) :
    ∀ (acc : List ((Nat × Nat × Nat) × (Nat × Nat × Nat))),
    (acc.map Prod.fst).Nodup → ((l.foldl insStep acc).map Prod.fst).Nodup := by
  induction l with
  | nil => intro acc h; exact h
  | cons t rest ih =>
    intro acc hacc
    rw [List.foldl_cons]
    apply ih
    unfold insStep
    cases hs : (alookup (keyOf t) acc).isSome with
    | true => simpa using hacc
    | false =>
      have hmem : keyOf t ∉ acc.map Prod.fst := by
        rw [← alookup_isSome (β := Nat × Nat × Nat)]
        simp [hs]
      have hif : (if false = true then acc else acc ++ [(keyOf t, reconOf t)]) =
          acc ++ [(keyOf t, reconOf t)] := by simp
      rw [hif, List.map_append, List.nodup_append]
      refine ⟨hacc, by simp, ?_⟩
      intro a ha hb
      have haeq : a = keyOf t := by simpa using hb
      subst haeq
      exact hmem ha

theorem seenFold_keys_nodup : (seenFold.map Prod.fst).Nodup :=
  foldl_insStep_nodup enum565 [] (by simp)

theorem find?_map_pair {α β : Type} (a : α) (L : List β) (p : α × β → Bool) :
    List.find? p (L.map fun b => (a, b)) =
      (List.find? (fun b => p (a, b)) L).map fun b => (a, b) := by
  rw [List.find?_map]
  rfl

theorem find?_flatMap_prod {α β : Type} (L1 : List α) (L2 : List β)
    (q1 : α → Bool) (q2 : β → Bool) :
    List.find? (fun ab : α × β => q1 ab.1 && q2 ab.2)
        (L1.flatMap fun a => L2.map fun b => (a, b)) =
      (L1.find? q1).bind fun a => (L2.find? q2).map fun b => (a, b) := by
  induction L1 with
  | nil => simp
  | cons a L1 ih =>
    rw [List.flatMap_cons, List.find?_append, find?_map_pair, List.find?_cons]
    cases hq1 : q1 a with
    | false =>
      have hnone : (List.find? (fun b => q1 a && q2 b) L2) = none := by
        rw [List.find?_eq_none]
        intro x _
        simp [hq1]
      rw [hnone]
      simp only [Option.map_none, Option.none_or]
      exact ih
    | true =>
      have hpred : (fun b => q1 a && q2 b) = q2 := by
        funext b; rw [hq1, Bool.true_and]
      rw [hpred]
      cases hq2 : L2.find? q2 with
      | some b => rfl
      | none =>
        simp only [Option.map_none, Option.none_or]
        rw [ih, hq2]
        cases L1.find? q1 <;> rfl


theorem decideAnd (p q : Prop) [Decidable p] [Decidable q] :
    decide (p ∧ q) = (decide p && decide q) := by
  by_cases hp : p <;> by_cases hq : q <;> simp [hp, hq]

theorem enum565_structured :
    enum565 = (List.range 32).flatMap fun r5 => pairsGB.map fun gb => (r5, gb) := by
  have hfun : (fun r5 => (List.range 64).flatMap fun g6 =>
        (List.range 32).map fun b5 => (r5, g6, b5))
      = (fun r5 => pairsGB.map fun gb => ((r5, gb) : Nat × Nat × Nat)) := by
    funext r5
    unfold pairsGB
    rw [List.map_flatMap]
    simp only [List.map_map, Function.comp_def]
  unfold enum565
  rw [hfun]

theorem find?_pairsGB (kg kb : Nat) :
    (pairsGB.find? fun gb =>
        decide (lut4 (reconG gb.1) = kg) && decide (lut4 (reconR gb.2) = kb)) =
      (firstG kg).bind fun b => (firstR kb).map fun c => (b, c) := by
  unfold pairsGB firstG firstR
  exact find?_flatMap_prod (List.range 64) (List.range 32)
    (fun v => decide (lut4 (reconG v) = kg)) (fun v => decide (lut4 (reconR v) = kb))

theorem find?_enum565 (kr kg kb : Nat) :
    (enum565.find? fun t => decide (keyOf t = (kr, kg, kb))) =
      (firstR kr).bind fun a => (firstG kg).bind fun b => (firstR kb).map fun c =>
        ((a, b, c) : Nat × Nat × Nat) := by
  have hpred : (fun t : Nat × Nat × Nat => decide (keyOf t = (kr, kg, kb))) =
      fun t : Nat × Nat × Nat => decide (lut4 (reconR t.1) = kr) &&
        (decide (lut4 (reconG t.2.1) = kg) && decide (lut4 (reconR t.2.2) = kb)) := by
    funext t
    rw [← decideAnd, ← decideAnd]
    refine decide_eq_decide.mpr ?_
    unfold keyOf
    simp [Prod.mk.injEq]
  have h1 : (enum565.find? fun t => decide (keyOf t = (kr, kg, kb))) =
      ((List.range 32).flatMap fun r5 => pairsGB.map fun gb => (r5, gb)).find?
        (fun t => decide (lut4 (reconR t.1) = kr) &&
          (decide (lut4 (reconG t.2.1) = kg) && decide (lut4 (reconR t.2.2) = kb))) := by
    rw [enum565_structured, hpred]
  rw [h1]
  refine Eq.trans (find?_flatMap_prod (List.range 32) pairsGB
    (fun v => decide (lut4 (reconR v) = kr))
    (fun gb => decide (lut4 (reconG gb.1) = kg) && decide (lut4 (reconR gb.2) = kb))) ?_
  rw [find?_pairsGB]
  rw [show List.find? (fun v => decide (lut4 (reconR v) = kr)) (List.range 32) = firstR kr
    from rfl]
  cases firstR kr with
  | none => rfl
  | some a =>
    cases firstG kg with
    | none => rfl
    | some b =>
      cases firstR kb with
      | none => rfl
      | some c => rfl

theorem mem_paletteKeys_iff (k : Nat × Nat × Nat) :
    k ∈ paletteKeys ↔ k ∈ seenFold.map Prod.fst :=
  (List.perm_insertionSort keyLE (seenFold.map Prod.fst)).mem_iff

theorem mem_paletteInput_iff (p : RGB) :
    p ∈ paletteInput ↔ ∃ kr kg kb a b c,
      firstR kr = some a ∧ firstG kg = some b ∧ firstR kb = some c ∧
      p = (reconR a, reconG b, reconR c) := by
  unfold paletteInput
  rw [List.mem_filterMap]
  constructor
  · rintro ⟨k, hk, hlook⟩
    obtain ⟨kr, kg, kb⟩ := k
    rw [alookup_seenFold, find?_enum565] at hlook
    cases hR : firstR kr with
    | none => rw [hR] at hlook; simp at hlook
    | some a =>
      cases hG : firstG kg with
      | none => rw [hR, hG] at hlook; simp at hlook
      | some b =>
        cases hB : firstR kb with
        | none => rw [hR, hG, hB] at hlook; simp at hlook
        | some c =>
          rw [hR, hG, hB] at hlook
          refine ⟨kr, kg, kb, a, b, c, hR, hG, hB, ?_⟩
          have hsome : some (reconOf (a, b, c)) = some p := hlook
          have hp := Option.some.inj hsome
          rw [← hp]
          rfl
  · rintro ⟨kr, kg, kb, a, b, c, hR, hG, hB, hp⟩
    refine ⟨(kr, kg, kb), ?_, ?_⟩
    · rw [mem_paletteKeys_iff, ← alookup_isSome (β := Nat × Nat × Nat),
        alookup_seenFold, find?_enum565, hR, hG, hB]
      rfl
    · rw [alookup_seenFold, find?_enum565, hR, hG, hB, hp]
      rfl

theorem fR0 : firstR 0 = some 0 := by decide

theorem fG0 : firstG 0 = some 0 := by decide

theorem fR15 : firstR 15 = some 31 := by decide

theorem fG15 : firstG 15 = some 63 := by decide

theorem zero_mem_paletteInput : ((0, 0, 0) : RGB) ∈ paletteInput := by
  rw [mem_paletteInput_iff]
  exact ⟨0, 0, 0, 0, 0, 0, fR0, fG0, fR0, by decide⟩

theorem white_mem_paletteInput : ((255, 255, 255) : RGB) ∈ paletteInput := by
  rw [mem_paletteInput_iff]
  exact ⟨15, 15, 15, 31, 63, 31, fR15, fG15, fR15, by decide⟩

theorem getD_mem_paletteInput (i : Nat) : paletteInput.getD i (0, 0, 0) ∈ paletteInput := by
  by_cases hlen : i < paletteInput.length
  · rw [List.getD_eq_getElem _ _ hlen]
    exact List.getElem_mem hlen
  · rw [List.getD_eq_default _ _ (Nat.le_of_not_lt hlen)]
    exact zero_mem_paletteInput

theorem refGreen_mem_paletteInput (C : Ctx) : refGreen C ∈ paletteInput := by
  unfold refGreen
  exact getD_mem_paletteInput _

theorem mem_palette_killGB {p : RGB} (hp : p ∈ paletteInput) :
    ((p.1, 0, 0) : RGB) ∈ paletteInput := by
  rw [mem_paletteInput_iff] at hp ⊢
  obtain ⟨kr, kg, kb, a, b, c, hR, hG, hB, hpe⟩ := hp
  refine ⟨kr, 0, 0, a, 0, 0, hR, fG0, fR0, ?_⟩
  have h1 : reconG 0 = 0 := by decide
  have h2 : reconR 0 = 0 := by decide
  subst hpe
  simp [h1, h2]

theorem mem_palette_killB {p : RGB} (hp : p ∈ paletteInput) :
    ((p.1, p.2.1, 0) : RGB) ∈ paletteInput := by
  rw [mem_paletteInput_iff] at hp ⊢
  obtain ⟨kr, kg, kb, a, b, c, hR, hG, hB, hpe⟩ := hp
  refine ⟨kr, kg, 0, a, b, 0, hR, hG, fR0, ?_⟩
  have h2 : reconR 0 = 0 := by decide
  subst hpe
  simp [h2]

theorem lut4_le (i : Nat) : lut4 i ≤ 15 := by
  unfold lut4 cieLut
  split <;> exact Nat.min_le_left _ _

theorem seenFold_keys_bound :
    ∀ k ∈ seenFold.map Prod.fst, k.1 < 16 ∧ k.2.1 < 16 ∧ k.2.2 < 16 := by
  intro k hk
  rw [← alookup_isSome (β := Nat × Nat × Nat), alookup_seenFold] at hk
  cases hfind : enum565.find? fun t => decide (keyOf t = k) with
  | none => rw [hfind] at hk; simp at hk
  | some t =>
    have hkey : keyOf t = k := by simpa using List.find?_some hfind
    rw [← hkey]
    unfold keyOf
    refine ⟨?_, ?_, ?_⟩ <;> exact Nat.lt_succ_of_le (lut4_le _)

theorem paletteInput_length_le : paletteInput.length ≤ 4096 := by
  have h1 : paletteInput.length ≤ paletteKeys.length := List.length_filterMap_le _ _
  have h2 : paletteKeys.length = (seenFold.map Prod.fst).length :=
    (List.perm_insertionSort keyLE _).length_eq
  have h3 : (seenFold.map Prod.fst).length ≤ 4096 := by
    have hcard : (seenFold.map Prod.fst).toFinset.card = (seenFold.map Prod.fst).length :=
      List.toFinset_card_of_nodup seenFold_keys_nodup
    have hsub : (seenFold.map Prod.fst).toFinset ⊆
        Finset.range 16 ×ˢ Finset.range 16 ×ˢ Finset.range 16 := by
      intro k hkmem
      rw [List.mem_toFinset] at hkmem
      obtain ⟨b1, b2, b3⟩ := seenFold_keys_bound k hkmem
      simp only [Finset.mem_product, Finset.mem_range]
      exact ⟨b1, b2, b3⟩
    have hle := Finset.card_le_card hsub
    rw [hcard] at hle
    simpa [Finset.card_product, Finset.card_range] using hle
  omega

theorem paletteKeys_sorted : List.Sorted keyLE paletteKeys :=
  List.sorted_insertionSort keyLE _

theorem paletteKeys_nodup : paletteKeys.Nodup :=
  ((List.perm_insertionSort keyLE _).nodup_iff).mpr seenFold_keys_nodup

theorem enum565_mem_iff (t : Nat × Nat × Nat) :
    t ∈ enum565 ↔ t.1 < 32 ∧ t.2.1 < 64 ∧ t.2.2 < 32 := by
  unfold enum565
  simp only [List.mem_flatMap, List.mem_map, List.mem_range]
  constructor
  · rintro ⟨r5, hr5, g6, hg6, b5, hb5, rfl⟩
    exact ⟨hr5, hg6, hb5⟩
  · rintro ⟨h1, h2, h3⟩
    obtain ⟨a, b, c⟩ := t
    exact ⟨a, h1, b, h2, c, h3, rfl⟩

theorem enum565_length : enum565.length = 65536 := by
  unfold enum565
  simp [List.length_flatMap, Function.comp_def, List.map_const', List.sum_replicate,
    smul_eq_mul]

theorem pairwiseFlatMap {α β : Type} {R : β → β → Prop} {f : α → List β} {l : List α}
    (h1 : ∀ a ∈ l, List.Pairwise R (f a))
    (h2 : List.Pairwise (fun a a2 => ∀ b ∈ f a, ∀ b2 ∈ f a2, R b b2) l) :
    List.Pairwise R (l.flatMap f) := by
  induction l with
  | nil => simp
  | cons a l ih =>
    rw [List.flatMap_cons, List.pairwise_append]
    rw [List.pairwise_cons] at h2
    refine ⟨h1 a (by simp), ih (fun x hx => h1 x (by simp [hx])) h2.2, ?_⟩
    intro b hb b2 hb2
    rw [List.mem_flatMap] at hb2
    obtain ⟨a2, ha2, hb2f⟩ := hb2
    exact h2.1 a2 ha2 b hb b2 hb2f

theorem enum565_pairwise : List.Pairwise keyLT enum565 := by
  unfold enum565
  apply pairwiseFlatMap
  · intro r5 _
    apply pairwiseFlatMap
    · intro g6 _
      rw [List.pairwise_map]
      refine List.Pairwise.imp ?_ (List.pairwise_lt_range 32)
      intro b1 b2 hb
      exact Or.inr ⟨rfl, Or.inr ⟨rfl, hb⟩⟩
    · refine List.Pairwise.imp ?_ (List.pairwise_lt_range 64)
      intro g1 g2 hg b hb b2 hb2
      simp only [List.mem_map] at hb hb2
      obtain ⟨x1, _, rfl⟩ := hb
      obtain ⟨x2, _, rfl⟩ := hb2
      exact Or.inr ⟨rfl, Or.inl hg⟩
  · refine List.Pairwise.imp ?_ (List.pairwise_lt_range 32)
    intro r1 r2 hr b hb b2 hb2
    simp only [List.mem_flatMap, List.mem_map] at hb hb2
    obtain ⟨g1, _, x1, _, rfl⟩ := hb
    obtain ⟨g2, _, x2, _, rfl⟩ := hb2
    exact Or.inl hr

/-! ## Claim theorems -/

set_option maxRecDepth 10000 in
/-- C10: the 4-bit channel LUT is monotonically non-decreasing with
`CIE_LUT_4BIT[0] = 0` and `CIE_LUT_4BIT[255] = 15`, and consequently the
built palette stores `(0,0,0)` as the representative of CIE triple `(0,0,0)`
and `(255,255,255)` as the representative of `(15,15,15)`, so true black and
true white are exactly representable palette entries. -/
theorem c10_lut_monotone_extremes :
    (∀ i, i < 255 → lut4 i ≤ lut4 (i + 1)) ∧
    lut4 0 = 0 ∧ lut4 255 = 15 ∧
    alookup ((0, 0, 0) : Nat × Nat × Nat) seenFold = some (0, 0, 0) ∧
    alookup ((15, 15, 15) : Nat × Nat × Nat) seenFold = some (255, 255, 255) ∧
    ((0, 0, 0) : RGB) ∈ paletteInput ∧ ((255, 255, 255) : RGB) ∈ paletteInput := by
  refine ⟨by decide, by decide, by decide, ?_, ?_,
    zero_mem_paletteInput, white_mem_paletteInput⟩
  · rw [alookup_seenFold, find?_enum565, fR0, fG0]
    rfl
  · rw [alookup_seenFold, find?_enum565, fR15, fG15]
    rfl

theorem c10_witness : 0 < 255 ∧ lut4 0 ≤ lut4 1 :=
  ⟨by decide, c10_lut_monotone_extremes.1 0 (by decide)⟩

/-- C2 counterexample: the claim (and the spec's formula `v8 = (v_n << (8-n))
| (v_n >> n)`) fails on the code at `v5 = 31`: the code's reconstruction
gives 255 while the claimed formula gives `(31 << 3) | (31 >> 5) = 248`. -/
theorem c2_counterexample : reconR 31 ≠ ((31 <<< (8 - 5)) ||| (31 >>> 5)) := by decide

/-- C2 amended: the palette builder's channel reconstruction equals
bit-replication with right shift `2n − 8` (not `n`):
`r8 = (r5 << 3) | (r5 >> 2)`, `g8 = (g6 << 2) | (g6 >> 4)`,
`b8 = (b5 << 3) | (b5 >> 2)`. -/
theorem c2_bit_replication :
    (∀ v5, v5 < 32 → reconR v5 = ((v5 <<< (8 - 5)) ||| (v5 >>> (2 * 5 - 8)))) ∧
    (∀ v6, v6 < 64 → reconG v6 = ((v6 <<< (8 - 6)) ||| (v6 >>> (2 * 6 - 8)))) :=
  ⟨fun _ _ => rfl, fun _ _ => rfl⟩

theorem c2_witness :
    (31 < 32 ∧ reconR 31 = ((31 <<< (8 - 5)) ||| (31 >>> (2 * 5 - 8)))) ∧
    (63 < 64 ∧ reconG 63 = ((63 <<< (8 - 6)) ||| (63 >>> (2 * 6 - 8)))) :=
  ⟨⟨by decide, c2_bit_replication.1 31 (by decide)⟩,
   ⟨by decide, c2_bit_replication.2 63 (by decide)⟩⟩

/-- C9: `rgba_to_rgb` composites over an opaque black background with the
alpha channel as paste mask, so a fully transparent pixel becomes `(0,0,0)`;
a non-RGBA image is pasted unchanged. -/
theorem c9_rgba_to_rgb (imgA : ImgA) (y x : Nat) :
    (rgbaToRgb imgA).h = imgA.h ∧ (rgbaToRgb imgA).w = imgA.w ∧
    (imgA.isRGBA = true → (imgA.px y x).2.2.2 = 0 →
      (rgbaToRgb imgA).px y x = (0, 0, 0)) ∧
    (imgA.isRGBA = false →
      (rgbaToRgb imgA).px y x =
        ((imgA.px y x).1, (imgA.px y x).2.1, (imgA.px y x).2.2.1)) := by
  refine ⟨rfl, rfl, ?_, ?_⟩
  · intro hmode ha
    have hbp : ∀ c : Nat, blendPaste 0 c 0 = 0 := by
      intro c
      simp [blendPaste, muldiv255]
    simp [rgbaToRgb, hmode, ha, hbp]
  · intro hmode
    simp [rgbaToRgb, hmode]

theorem c9_witness :
    imgA0.isRGBA = true ∧ (imgA0.px 0 0).2.2.2 = 0 ∧
    (rgbaToRgb imgA0).px 0 0 = (0, 0, 0) :=
  ⟨rfl, rfl, (c9_rgba_to_rgb imgA0 0 0).2.2.1 rfl rfl⟩

/-- C8: under the `red` rule, warm pixels (`R ≥ 70`, `R−G > 15`, `R−B > 15`)
with `min(R,G,B) < 150` get `G = B = 0` with `R` unchanged; warm pixels with
`min(R,G,B) ≥ 150` become pure white; all other pixels are unchanged — and
`_apply_post_quant_fix` applies exactly this pixel function for teams mapped
to `"red"`. -/
theorem c8_red_rule (C : Ctx) :
    (∀ p : RGB,
      (70 ≤ p.1 ∧ 15 < (p.1 : Int) - (p.2.1 : Int) ∧ 15 < (p.1 : Int) - (p.2.2 : Int) →
        (min (min p.1 p.2.1) p.2.2 < 150 → redFix p = (p.1, 0, 0)) ∧
        (150 ≤ min (min p.1 p.2.1) p.2.2 → redFix p = (255, 255, 255))) ∧
      (¬(70 ≤ p.1 ∧ 15 < (p.1 : Int) - (p.2.1 : Int) ∧ 15 < (p.1 : Int) - (p.2.2 : Int)) →
        redFix p = p)) ∧
    (∀ img team, alookup team teamColorFixes = some "red" →
      ∀ y x, (applyPostQuantFix C img team).px y x = redFix (img.px y x)) := by
  constructor
  · intro p
    constructor
    · intro hwarm
      constructor
      · intro hnw
        have hc : (70 ≤ p.1 ∧ 15 < (p.1 : Int) - (p.2.1 : Int) ∧
            15 < (p.1 : Int) - (p.2.2 : Int)) ∧
            ¬(150 ≤ min (min p.1 p.2.1) p.2.2) := ⟨hwarm, by omega⟩
        simp only [redFix]
        rw [if_pos hc]
      · intro hnw
        have hc1 : ¬((70 ≤ p.1 ∧ 15 < (p.1 : Int) - (p.2.1 : Int) ∧
            15 < (p.1 : Int) - (p.2.2 : Int)) ∧
            ¬(150 ≤ min (min p.1 p.2.1) p.2.2)) := fun h => h.2 hnw
        simp only [redFix]
        rw [if_neg hc1, if_pos ⟨hwarm, hnw⟩]
    · intro hwarm
      have hc1 : ¬((70 ≤ p.1 ∧ 15 < (p.1 : Int) - (p.2.1 : Int) ∧
          15 < (p.1 : Int) - (p.2.2 : Int)) ∧
          ¬(150 ≤ min (min p.1 p.2.1) p.2.2)) := fun h => hwarm h.1
      have hc2 : ¬((70 ≤ p.1 ∧ 15 < (p.1 : Int) - (p.2.1 : Int) ∧
          15 < (p.1 : Int) - (p.2.2 : Int)) ∧
          150 ≤ min (min p.1 p.2.1) p.2.2) := fun h => hwarm h.1
      simp only [redFix]
      rw [if_neg hc1, if_neg hc2]
  · intro img team hrule y x
    unfold applyPostQuantFix
    rw [hrule]
    simp [mapImg]

theorem c8_witness :
    (70 ≤ (200 : Nat) ∧ 15 < ((200 : Nat) : Int) - ((0 : Nat) : Int) ∧
      15 < ((200 : Nat) : Int) - ((0 : Nat) : Int)) ∧
    min (min (200 : Nat) 0) 0 < 150 ∧
    redFix (200, 0, 0) = (200, 0, 0) ∧
    alookup "NJD" teamColorFixes = some "red" ∧
    (applyPostQuantFix ctx0 { h := 1, w := 1, px := fun _ _ => (200, 0, 0) } "NJD").px 0 0 =
      redFix (200, 0, 0) :=
  ⟨by decide, by decide,
    (((c8_red_rule ctx0).1 (200, 0, 0)).1 (by decide)).1 (by decide),
    by decide,
    (c8_red_rule ctx0).2 { h := 1, w := 1, px := fun _ _ => (200, 0, 0) } "NJD"
      (by decide) 0 0⟩

/-- C5: in `quantize_perceptual`, a pixel with query lightness `L < 5`
quantizes to pure black, one with `L > 95`, `|a| < 5`, `|b| < 5` to pure
white, and every other pixel to the palette RGB888 of the matcher's chosen
CIELAB palette entry (the overrides are applied on top of the match
result). -/
theorem c5_quantize_overrides (C : Ctx) (img : Img) (y x : Nat) :
    ((C.labOf (img.px y x)).1 < 5 → (quantizePerceptual C img).px y x = (0, 0, 0)) ∧
    (95 < (C.labOf (img.px y x)).1 ∧ |(C.labOf (img.px y x)).2.1| < 5 ∧
        |(C.labOf (img.px y x)).2.2| < 5 →
      (quantizePerceptual C img).px y x = (255, 255, 255)) ∧
    (¬((C.labOf (img.px y x)).1 < 5) ∧
        ¬(95 < (C.labOf (img.px y x)).1 ∧ |(C.labOf (img.px y x)).2.1| < 5 ∧
          |(C.labOf (img.px y x)).2.2| < 5) →
      (quantizePerceptual C img).px y x =
        paletteInput.getD (C.nearest (C.labOf (img.px y x))) (0, 0, 0)) := by
  refine ⟨?_, ?_, ?_⟩
  · intro hb
    have hw : ¬(95 < (C.labOf (img.px y x)).1 ∧ |(C.labOf (img.px y x)).2.1| < 5 ∧
        |(C.labOf (img.px y x)).2.2| < 5) := by
      rintro ⟨h95, _⟩
      linarith
    simp only [quantizePerceptual]
    rw [if_neg hw, if_pos hb]
  · intro hw
    simp only [quantizePerceptual]
    rw [if_pos hw]
  · rintro ⟨hb, hw⟩
    simp only [quantizePerceptual]
    rw [if_neg hw, if_neg hb]

theorem c5_witness :
    (ctx0.labOf (imgBlack1.px 0 0)).1 < 5 ∧
    (quantizePerceptual ctx0 imgBlack1).px 0 0 = (0, 0, 0) :=
  ⟨by norm_num [ctx0, imgBlack1],
    (c5_quantize_overrides ctx0 imgBlack1 0 0).1 (by norm_num [ctx0, imgBlack1])⟩

theorem orShiftRight (x y k : Nat) : (x ||| y) >>> k = (x >>> k) ||| (y >>> k) := by
  apply Nat.eq_of_testBit_eq
  intro i
  simp [Nat.testBit_shiftRight, Nat.testBit_or]

theorem orAnd (x y m : Nat) : (x ||| y) &&& m = (x &&& m) ||| (y &&& m) := by
  apply Nat.eq_of_testBit_eq
  intro i
  simp only [Nat.testBit_and, Nat.testBit_or]
  cases x.testBit i <;> cases y.testBit i <;> cases m.testBit i <;> rfl

theorem chanMaskR : ∀ a, a < 32 → reconR a &&& 0xF8 = 8 * a := by decide

theorem chanMaskG : ∀ b, b < 64 → reconG b &&& 0xFC = 4 * b := by decide

theorem chanShiftB : ∀ c, c < 32 → reconR c >>> 3 = c := by decide

theorem mask31 : ∀ a, a < 32 → a &&& 31 = a := by decide

theorem mask63 : ∀ b, b < 64 → b &&& 63 = b := by decide

theorem roundtrip565 {a b c : Nat} (ha : a < 32) (hb : b < 64) (hc : c < 32) :
    unpack565 (pack565 (reconR a, reconG b, reconR c)) = (reconR a, reconG b, reconR c) := by
  have e1 : (8 * a) <<< 8 = 2048 * a := by rw [Nat.shiftLeft_eq]; ring
  have e2 : (4 * b) <<< 3 = 32 * b := by rw [Nat.shiftLeft_eq]; ring
  have hpack : pack565 (reconR a, reconG b, reconR c) = ((2048 * a) ||| (32 * b)) ||| c := by
    simp only [pack565]
    rw [chanMaskR a ha, chanMaskG b hb, chanShiftB c hc, e1, e2]
  have p11 : (2 : Nat) ^ 11 = 2048 := by norm_num
  have p5 : (2 : Nat) ^ 5 = 32 := by norm_num
  have hv11 : (((2048 * a) ||| (32 * b)) ||| c) >>> 11 = a := by
    rw [orShiftRight, orShiftRight, Nat.shiftRight_eq_div_pow, Nat.shiftRight_eq_div_pow,
      Nat.shiftRight_eq_div_pow, p11]
    have d1 : 2048 * a / 2048 = a := by omega
    have d2 : 32 * b / 2048 = 0 := by omega
    have d3 : c / 2048 = 0 := by omega
    rw [d1, d2, d3, Nat.or_zero, Nat.or_zero]
  have hv5 : (((2048 * a) ||| (32 * b)) ||| c) >>> 5 = (64 * a) ||| b := by
    rw [orShiftRight, orShiftRight, Nat.shiftRight_eq_div_pow, Nat.shiftRight_eq_div_pow,
      Nat.shiftRight_eq_div_pow, p5]
    have d1 : 2048 * a / 32 = 64 * a := by omega
    have d2 : 32 * b / 32 = b := by omega
    have d3 : c / 32 = 0 := by omega
    rw [d1, d2, d3, Nat.or_zero]
  have h31 : (31 : Nat) = 2 ^ 5 - 1 := by norm_num
  have h63 : (63 : Nat) = 2 ^ 6 - 1 := by norm_num
  have hc1 : (((2048 * a) ||| (32 * b)) ||| c) >>> 11 &&& 31 = a := by
    rw [hv11]
    exact mask31 a ha
  have hc2 : (((2048 * a) ||| (32 * b)) ||| c) >>> 5 &&& 63 = b := by
    rw [hv5, orAnd]
    have e1 : 64 * a &&& 63 = 0 := by
      rw [h63, Nat.and_pow_two_sub_one_eq_mod]
      omega
    rw [e1, mask63 b hb, Nat.zero_or]
  have hc3 : (((2048 * a) ||| (32 * b)) ||| c) &&& 31 = c := by
    rw [orAnd, orAnd]
    have e1 : 2048 * a &&& 31 = 0 := by
      rw [h31, Nat.and_pow_two_sub_one_eq_mod]
      omega
    have e2 : 32 * b &&& 31 = 0 := by
      rw [h31, Nat.and_pow_two_sub_one_eq_mod]
      omega
    rw [e1, e2, mask31 c hc, Nat.zero_or, Nat.zero_or]
  rw [hpack]
  unfold unpack565
  rw [hc1, hc2, hc3]

theorem unpack_pack_mem {p : RGB} (hp : p ∈ paletteInput) :
    unpack565 (pack565 p) = p := by
  rw [mem_paletteInput_iff] at hp
  obtain ⟨kr, kg, kb, a, b, c, hR, hG, hB, hpe⟩ := hp
  have ha : a < 32 := by
    have := List.mem_of_find?_eq_some hR
    simpa using this
  have hbb : b < 64 := by
    have := List.mem_of_find?_eq_some hG
    simpa using this
  have hcc : c < 32 := by
    have := List.mem_of_find?_eq_some hB
    simpa using this
  rw [hpe]
  exact roundtrip565 ha hbb hcc

theorem zero_mem_paletteKeys : ((0, 0, 0) : Nat × Nat × Nat) ∈ paletteKeys := by
  rw [mem_paletteKeys_iff, ← alookup_isSome (β := Nat × Nat × Nat), alookup_seenFold,
    find?_enum565, fR0, fG0]
  rfl

/-- C4: the palette builder enumerates all 65536 `(r5, g6, b5)` combinations
in strictly ascending `r5`-major, `g6`-mid, `b5`-minor order; for each
distinct CIE triple it stores the RGB888 reconstruction of the first
enumerated producer (`find?` over the enumeration); the returned keys are
sorted ascending (and distinct) and the palette entry list is their lookups;
and the palette has at most 4096 entries. -/
theorem c4_palette_builder :
    (∀ t : Nat × Nat × Nat, t ∈ enum565 ↔ t.1 < 32 ∧ t.2.1 < 64 ∧ t.2.2 < 32) ∧
    List.Pairwise keyLT enum565 ∧
    enum565.length = 65536 ∧
    (∀ k ∈ paletteKeys,
      alookup k seenFold = (enum565.find? fun t => decide (keyOf t = k)).map reconOf) ∧
    List.Sorted keyLE paletteKeys ∧ paletteKeys.Nodup ∧
    paletteInput = (paletteKeys.filterMap fun k => alookup k seenFold) ∧
    paletteInput.length ≤ 4096 :=
  ⟨enum565_mem_iff, enum565_pairwise, enum565_length,
    fun k _ => alookup_seenFold k, paletteKeys_sorted, paletteKeys_nodup, rfl,
    paletteInput_length_le⟩

theorem c4_witness :
    ((0, 0, 0) : Nat × Nat × Nat) ∈ paletteKeys ∧
    alookup ((0, 0, 0) : Nat × Nat × Nat) seenFold =
      (enum565.find? fun t => decide (keyOf t = (0, 0, 0))).map reconOf :=
  ⟨zero_mem_paletteKeys,
    c4_palette_builder.2.2.2.1 (0, 0, 0) zero_mem_paletteKeys⟩

theorem foldlCongrMem {α β : Type} (l : List α) (f g : β → α → β) (s : β)
    (h : ∀ a ∈ l, ∀ st, f st a = g st a) : l.foldl f s = l.foldl g s := by
  induction l generalizing s with
  | nil => rfl
  | cons a l ih =>
    rw [List.foldl_cons, List.foldl_cons, h a (by simp) s]
    exact ih _ fun x hx st => h x (by simp [hx]) st

theorem mem_rowMajor_iff (h w : Nat) (yx : Nat × Nat) :
    yx ∈ rowMajor h w ↔ yx.1 < h ∧ yx.2 < w := by
  unfold rowMajor
  simp only [List.mem_flatMap, List.mem_map, List.mem_range]
  constructor
  · rintro ⟨y, hy, x, hx, rfl⟩
    exact ⟨hy, hx⟩
  · rintro ⟨h1, h2⟩
    obtain ⟨y, x⟩ := yx
    exact ⟨y, h1, x, h2, rfl⟩

theorem ditherStep_eq_spec (C : Ctx) (strength : ℚ) (h w : Nat) (s : DSt)
    (y x : Nat) (hy : y < h) (hx : x < w) :
    ditherStep C strength h w s (y, x) = ditherStepSpec C strength h w s (y, x) := by
  simp only [ditherStep, ditherStepSpec, diffuseSpec, fsKernel, List.foldl_cons,
    List.foldl_nil]
  have t0 : (((y : Int) + 0).toNat) = y := by omega
  have t1 : (((x : Int) + 1).toNat) = x + 1 := by omega
  have t2 : (((y : Int) + 1).toNat) = y + 1 := by omega
  have t3 : (((x : Int) + -1).toNat) = x - 1 := by omega
  have t4 : (((x : Int) + 0).toNat) = x := by omega
  rw [t0, t1, t2, t3, t4]
  by_cases hov1 : (s.lab y x).1 < 5
  · simp [hov1]
  · by_cases hov2 : 95 < (s.lab y x).1 ∧ |(s.lab y x).2.1| < 5 ∧ |(s.lab y x).2.2| < 5
    · simp [hov1, hov2]
    · have hc1 : (0 ≤ (y : Int) + 0 ∧ (y : Int) + 0 < (h : Int) ∧ 0 ≤ (x : Int) + 1 ∧
          (x : Int) + 1 < (w : Int)) ↔ x + 1 < w := by omega
      have hc2 : (0 ≤ (y : Int) + 1 ∧ (y : Int) + 1 < (h : Int) ∧ 0 ≤ (x : Int) + -1 ∧
          (x : Int) + -1 < (w : Int)) ↔ (y + 1 < h ∧ 0 < x) := by omega
      have hc3 : (0 ≤ (y : Int) + 1 ∧ (y : Int) + 1 < (h : Int) ∧ 0 ≤ (x : Int) + 0 ∧
          (x : Int) + 0 < (w : Int)) ↔ y + 1 < h := by omega
      have hc4 : (0 ≤ (y : Int) + 1 ∧ (y : Int) + 1 < (h : Int) ∧ 0 ≤ (x : Int) + 1 ∧
          (x : Int) + 1 < (w : Int)) ↔ (y + 1 < h ∧ x + 1 < w) := by omega
      by_cases hxw : x + 1 < w <;> by_cases hyh : y + 1 < h <;> by_cases hx0 : 0 < x <;>
        simp only [hov1, hov2, hc1, hc2, hc3, hc4, hxw, hyh, hx0, and_true, true_and,
          and_false, false_and, if_true, if_false, ite_true, ite_false, not_false_iff]

/-- C6: the dithered quantizer visits pixels row-major and is extensionally
the fold of the spec-worded step (overrides produce black/white and diffuse
no error; otherwise the scaled perceptual error is diffused right 7/16,
below-left 3/16, below 5/16, below-right 1/16, clamped to bounds, mutating
the in-flight CIELAB buffer); moreover an override step leaves the CIELAB
buffer untouched and only writes black/white into the result. -/
theorem c6_dither_row_major_kernel (C : Ctx) (strength : ℚ) (img : Img) :
    ditherQuantize C strength img =
      { h := img.h, w := img.w,
        px := ((rowMajor img.h img.w).foldl (ditherStepSpec C strength img.h img.w)
          (ditherInit C img)).res } ∧
    rowMajor img.h img.w =
      ((List.range img.h).flatMap fun y => (List.range img.w).map fun x => (y, x)) ∧
    (∀ (s : DSt) (y x : Nat), (s.lab y x).1 < 5 →
      ditherStep C strength img.h img.w s (y, x) =
        { s with res := writePx s.res y x (0, 0, 0) }) ∧
    (∀ (s : DSt) (y x : Nat), ¬((s.lab y x).1 < 5) →
      95 < (s.lab y x).1 ∧ |(s.lab y x).2.1| < 5 ∧ |(s.lab y x).2.2| < 5 →
      ditherStep C strength img.h img.w s (y, x) =
        { s with res := writePx s.res y x (255, 255, 255) }) := by
  refine ⟨?_, rfl, ?_, ?_⟩
  · unfold ditherQuantize
    have heq : (rowMajor img.h img.w).foldl (ditherStep C strength img.h img.w)
          (ditherInit C img)
        = (rowMajor img.h img.w).foldl (ditherStepSpec C strength img.h img.w)
          (ditherInit C img) := by
      apply foldlCongrMem
      intro yx hyx st
      obtain ⟨y, x⟩ := yx
      have hb := (mem_rowMajor_iff img.h img.w (y, x)).mp hyx
      exact ditherStep_eq_spec C strength img.h img.w st y x hb.1 hb.2
    rw [heq]
  · intro s y x hov
    simp only [ditherStep]
    rw [if_pos hov]
  · intro s y x hnb hw2
    simp only [ditherStep]
    rw [if_neg hnb, if_pos hw2]

theorem c6_witness :
    ((ditherInit ctx0 imgBlack1).lab 0 0).1 < 5 ∧
    ditherStep ctx0 (2/5) imgBlack1.h imgBlack1.w (ditherInit ctx0 imgBlack1) (0, 0) =
      { ditherInit ctx0 imgBlack1 with
        res := writePx (ditherInit ctx0 imgBlack1).res 0 0 (0, 0, 0) } :=
  ⟨by norm_num [ditherInit, ctx0, imgBlack1],
    (c6_dither_row_major_kernel ctx0 (2/5) imgBlack1).2.2.1 (ditherInit ctx0 imgBlack1)
      0 0 (by norm_num [ditherInit, ctx0, imgBlack1])⟩

theorem allowedOut_iff (C : Ctx) (p : RGB) :
    allowedOut C p ↔ (p ∈ paletteInput ∨ p = (0, 0, 0) ∨ p = (255, 255, 255)) := by
  unfold allowedOut
  constructor
  · rintro (h | h | h | h)
    · exact Or.inl h
    · exact Or.inr (Or.inl h)
    · exact Or.inr (Or.inr h)
    · exact Or.inl (h ▸ refGreen_mem_paletteInput C)
  · rintro (h | h | h)
    · exact Or.inl h
    · exact Or.inr (Or.inl h)
    · exact Or.inr (Or.inr (Or.inl h))

theorem quantize_px_allowed (C : Ctx) (img : Img) (y x : Nat) :
    allowedOut C ((quantizePerceptual C img).px y x) := by
  rw [allowedOut_iff]
  simp only [quantizePerceptual]
  split_ifs with h1 h2
  · exact Or.inr (Or.inr rfl)
  · exact Or.inr (Or.inl rfl)
  · exact Or.inl (getD_mem_paletteInput _)

theorem ditherStep_res_allowed (C : Ctx) (strength : ℚ) (h w : Nat) (s : DSt)
    (yx : Nat × Nat)
    (hs : ∀ y x, s.res y x ∈ paletteInput ∨ s.res y x = (0, 0, 0) ∨
      s.res y x = (255, 255, 255)) :
    ∀ y x, (ditherStep C strength h w s yx).res y x ∈ paletteInput ∨
      (ditherStep C strength h w s yx).res y x = (0, 0, 0) ∨
      (ditherStep C strength h w s yx).res y x = (255, 255, 255) := by
  intro y x
  simp only [ditherStep]
  by_cases h1 : (s.lab yx.1 yx.2).1 < 5
  · rw [if_pos h1]
    simp only [writePx]
    by_cases hp : y = yx.1 ∧ x = yx.2
    · rw [if_pos hp]
      exact Or.inr (Or.inl rfl)
    · rw [if_neg hp]
      exact hs y x
  · rw [if_neg h1]
    by_cases h2 : 95 < (s.lab yx.1 yx.2).1 ∧ |(s.lab yx.1 yx.2).2.1| < 5 ∧
        |(s.lab yx.1 yx.2).2.2| < 5
    · rw [if_pos h2]
      simp only [writePx]
      by_cases hp : y = yx.1 ∧ x = yx.2
      · rw [if_pos hp]
        exact Or.inr (Or.inr rfl)
      · rw [if_neg hp]
        exact hs y x
    · rw [if_neg h2]
      simp only [writePx]
      by_cases hp : y = yx.1 ∧ x = yx.2
      · rw [if_pos hp]
        exact Or.inl (getD_mem_paletteInput _)
      · rw [if_neg hp]
        exact hs y x

theorem dither_res_allowed (C : Ctx) (strength : ℚ) (h w : Nat)
    (l : List (Nat × Nat)) :
    ∀ (s : DSt), (∀ y x, s.res y x ∈ paletteInput ∨ s.res y x = (0, 0, 0) ∨
      s.res y x = (255, 255, 255)) →
    ∀ y x, (l.foldl (ditherStep C strength h w) s).res y x ∈ paletteInput ∨
      (l.foldl (ditherStep C strength h w) s).res y x = (0, 0, 0) ∨
      (l.foldl (ditherStep C strength h w) s).res y x = (255, 255, 255) := by
  induction l with
  | nil => intro s hs; exact hs
  | cons yx l ih =>
    intro s hs
    rw [List.foldl_cons]
    exact ih _ (ditherStep_res_allowed C strength h w s yx hs)

theorem redFix_allowed {p : RGB}
    (hp : p ∈ paletteInput ∨ p = (0, 0, 0) ∨ p = (255, 255, 255)) :
    redFix p ∈ paletteInput ∨ redFix p = (0, 0, 0) ∨ redFix p = (255, 255, 255) := by
  rcases hp with h | h | h
  · simp only [redFix]
    split_ifs with h1 h2
    · exact Or.inl (mem_palette_killGB h)
    · exact Or.inr (Or.inr rfl)
    · exact Or.inl h
  · subst h
    exact Or.inr (Or.inl (by decide))
  · subst h
    exact Or.inr (Or.inr (by decide))

theorem orangeFix_allowed {p : RGB}
    (hp : p ∈ paletteInput ∨ p = (0, 0, 0) ∨ p = (255, 255, 255)) :
    orangeFix p ∈ paletteInput ∨ orangeFix p = (0, 0, 0) ∨
      orangeFix p = (255, 255, 255) := by
  rcases hp with h | h | h
  · simp only [orangeFix]
    split_ifs with h1 h2
    · exact Or.inl (mem_palette_killB h)
    · exact Or.inr (Or.inr rfl)
    · exact Or.inl h
  · subst h
    exact Or.inr (Or.inl (by decide))
  · subst h
    exact Or.inr (Or.inr (by decide))

theorem postfix_px_allowed (C : Ctx) (img : Img) (team : String)
    (h : ∀ y x, allowedOut C (img.px y x)) :
    ∀ y x, allowedOut C ((applyPostQuantFix C img team).px y x) := by
  intro y x
  unfold applyPostQuantFix
  cases hlt : alookup team teamColorFixes with
  | none => exact h y x
  | some rule =>
    dsimp only
    split_ifs with h1 h2 h3
    · simp only [mapImg]
      rw [allowedOut_iff]
      exact redFix_allowed ((allowedOut_iff C _).mp (h y x))
    · simp only [mapImg]
      rw [allowedOut_iff]
      exact orangeFix_allowed ((allowedOut_iff C _).mp (h y x))
    · simp only [mapImg, greenBoostFix]
      split_ifs with hg
      · unfold allowedOut
        exact Or.inr (Or.inr (Or.inr rfl))
      · exact h y x
    · exact h y x

theorem applyPreQuantFix_id (img : Img) (team : String) :
    applyPreQuantFix img team = img := by
  unfold applyPreQuantFix
  cases alookup team teamColorFixes <;> rfl

theorem postfix_dims (C : Ctx) (img : Img) (team : String) :
    (applyPostQuantFix C img team).h = img.h ∧
    (applyPostQuantFix C img team).w = img.w := by
  unfold applyPostQuantFix
  cases alookup team teamColorFixes with
  | none => exact ⟨rfl, rfl⟩
  | some rule =>
    dsimp only
    split_ifs <;> exact ⟨rfl, rfl⟩

theorem reconR_le : ∀ a, a < 32 → reconR a ≤ 255 := by decide

theorem reconG_le : ∀ b, b < 64 → reconG b ≤ 255 := by decide

theorem palette_byte_bound : ∀ p ∈ paletteInput,
    p.1 ≤ 255 ∧ p.2.1 ≤ 255 ∧ p.2.2 ≤ 255 := by
  intro p hp
  rw [mem_paletteInput_iff] at hp
  obtain ⟨kr, kg, kb, a, b, c, hR, hG, hB, rfl⟩ := hp
  have ha : a < 32 := by simpa using List.mem_of_find?_eq_some hR
  have hb2 : b < 64 := by simpa using List.mem_of_find?_eq_some hG
  have hc2 : c < 32 := by simpa using List.mem_of_find?_eq_some hB
  exact ⟨reconR_le a ha, reconG_le b hb2, reconR_le c hc2⟩

theorem allowed_byte_bound (C : Ctx) (p : RGB) (h : allowedOut C p) :
    p.1 ≤ 255 ∧ p.2.1 ≤ 255 ∧ p.2.2 ≤ 255 := by
  rw [allowedOut_iff] at h
  rcases h with h | h | h
  · exact palette_byte_bound p h
  · subst h; exact ⟨by norm_num, by norm_num, by norm_num⟩
  · subst h; exact ⟨by norm_num, by norm_num, by norm_num⟩

/-- C1: for every RGBA input, subject identifier and configuration, the image
returned by `process_logo_perceptual` is exactly
`target_size × target_size`, each channel is an 8-bit value, and every pixel
is a palette entry's RGB888 triple, pure black, pure white, or the memoized
reference green. -/
theorem c1_output_closure (C : Ctx) (E : Env) (imgA : ImgA) (targetSize : Nat)
    (dither : Bool) (team : Option String) (y x : Nat)
    (_hy : y < targetSize) (_hx : x < targetSize) :
    (processLogoPerceptual C E imgA targetSize dither team).h = targetSize ∧
    (processLogoPerceptual C E imgA targetSize dither team).w = targetSize ∧
    allowedOut C ((processLogoPerceptual C E imgA targetSize dither team).px y x) ∧
    ((processLogoPerceptual C E imgA targetSize dither team).px y x).1 ≤ 255 ∧
    ((processLogoPerceptual C E imgA targetSize dither team).px y x).2.1 ≤ 255 ∧
    ((processLogoPerceptual C E imgA targetSize dither team).px y x).2.2 ≤ 255 := by
  have hqd_dims : ∀ (im : Img) (d : Bool),
      (if d then ditherQuantize C (2/5) im else quantizePerceptual C im).h = im.h ∧
      (if d then ditherQuantize C (2/5) im else quantizePerceptual C im).w = im.w := by
    intro im d
    cases d
    · exact ⟨rfl, rfl⟩
    · exact ⟨rfl, rfl⟩
  have hqd_allowed : ∀ (im : Img) (d : Bool) (y2 x2 : Nat),
      allowedOut C ((if d then ditherQuantize C (2/5) im
        else quantizePerceptual C im).px y2 x2) := by
    intro im d y2 x2
    cases d with
    | false => exact quantize_px_allowed C im y2 x2
    | true =>
      rw [allowedOut_iff]
      exact dither_res_allowed C (2/5) im.h im.w (rowMajor im.h im.w) (ditherInit C im)
        (fun _ _ => Or.inr (Or.inl rfl)) y2 x2
  cases team with
  | none =>
    simp only [processLogoPerceptual]
    have hal := hqd_allowed (E.resize (E.sharpnessEnhance (E.colorEnhance
      (E.contrastEnhance (rgbaToRgb imgA)))) targetSize) dither y x
    have hbb := allowed_byte_bound C _ hal
    exact ⟨by rw [(hqd_dims _ dither).1, E.resizeH],
      by rw [(hqd_dims _ dither).2, E.resizeW], hal, hbb.1, hbb.2.1, hbb.2.2⟩
  | some t =>
    simp only [processLogoPerceptual, applyPreQuantFix_id]
    have hal0 : ∀ y2 x2, allowedOut C ((if dither then
        ditherQuantize C (2/5) (E.resize (E.sharpnessEnhance (E.colorEnhance
          (E.contrastEnhance (rgbaToRgb imgA)))) targetSize)
        else quantizePerceptual C (E.resize (E.sharpnessEnhance (E.colorEnhance
          (E.contrastEnhance (rgbaToRgb imgA)))) targetSize)).px y2 x2) :=
      fun y2 x2 => hqd_allowed _ dither y2 x2
    have hal := postfix_px_allowed C _ t hal0 y x
    have hbb := allowed_byte_bound C _ hal
    have hd := postfix_dims C (if dither then
        ditherQuantize C (2/5) (E.resize (E.sharpnessEnhance (E.colorEnhance
          (E.contrastEnhance (rgbaToRgb imgA)))) targetSize)
        else quantizePerceptual C (E.resize (E.sharpnessEnhance (E.colorEnhance
          (E.contrastEnhance (rgbaToRgb imgA)))) targetSize)) t
    exact ⟨by rw [hd.1, (hqd_dims _ dither).1, E.resizeH],
      by rw [hd.2, (hqd_dims _ dither).2, E.resizeW], hal, hbb.1, hbb.2.1, hbb.2.2⟩

theorem c1_witness :
    0 < 1 ∧
    allowedOut ctx0 ((processLogoPerceptual ctx0 env0 imgA0 1 false none).px 0 0) :=
  ⟨by decide,
    (c1_output_closure ctx0 env0 imgA0 1 false none 0 0 (by decide) (by decide)).2.2.1⟩

/-- C7: every non-override pixel of a quantized output — whether from the
vectorized quantizer or the dithered one — survives the RGB565 pack of
`rgb_to_rgb565_le` followed by bit-replication re-expansion unchanged, so
the downstream 16-bit packing is lossless.  Every palette entry round-trips
(the output colors are exact RGB565 grid points); for `quantize_perceptual`
this yields the round-trip of every non-override pixel, and for
`quantize_perceptual_dithered` (any strength) the round-trip is proved for
every output pixel outright. -/
theorem c7_pack565_roundtrip (C : Ctx) (img : Img) (strength : ℚ) (y x : Nat) :
    (∀ p ∈ paletteInput, unpack565 (pack565 p) = p) ∧
    (¬((C.labOf (img.px y x)).1 < 5) →
      ¬(95 < (C.labOf (img.px y x)).1 ∧ |(C.labOf (img.px y x)).2.1| < 5 ∧
        |(C.labOf (img.px y x)).2.2| < 5) →
      unpack565 (pack565 ((quantizePerceptual C img).px y x)) =
        (quantizePerceptual C img).px y x) ∧
    unpack565 (pack565 ((ditherQuantize C strength img).px y x)) =
      (ditherQuantize C strength img).px y x := by
  refine ⟨fun p hp => unpack_pack_mem hp, ?_, ?_⟩
  · intro hb hw
    have hout : (quantizePerceptual C img).px y x =
        paletteInput.getD (C.nearest (C.labOf (img.px y x))) (0, 0, 0) := by
      simp only [quantizePerceptual]
      rw [if_neg hw, if_neg hb]
    have hmem : (quantizePerceptual C img).px y x ∈ paletteInput := by
      rw [hout]
      exact getD_mem_paletteInput _
    exact unpack_pack_mem hmem
  · have hall : (ditherQuantize C strength img).px y x ∈ paletteInput ∨
        (ditherQuantize C strength img).px y x = (0, 0, 0) ∨
        (ditherQuantize C strength img).px y x = (255, 255, 255) :=
      dither_res_allowed C strength img.h img.w (rowMajor img.h img.w)
        (ditherInit C img) (fun _ _ => Or.inr (Or.inl rfl)) y x
    rcases hall with h | h | h
    · exact unpack_pack_mem h
    · rw [h]
      decide
    · rw [h]
      decide

theorem c7_witness :
    ((0, 0, 0) : RGB) ∈ paletteInput ∧
    unpack565 (pack565 ((0, 0, 0) : RGB)) = ((0, 0, 0) : RGB) ∧
    ¬((ctx50.labOf (imgBlack1.px 0 0)).1 < 5) ∧
    unpack565 (pack565 ((quantizePerceptual ctx50 imgBlack1).px 0 0)) =
      (quantizePerceptual ctx50 imgBlack1).px 0 0 ∧
    unpack565 (pack565 ((ditherQuantize ctx50 (2/5) imgBlack1).px 0 0)) =
      (ditherQuantize ctx50 (2/5) imgBlack1).px 0 0 :=
  ⟨zero_mem_paletteInput,
    (c7_pack565_roundtrip ctx50 imgBlack1 (2/5) 0 0).1 (0, 0, 0) zero_mem_paletteInput,
    by norm_num [ctx50, imgBlack1],
    (c7_pack565_roundtrip ctx50 imgBlack1 (2/5) 0 0).2.1 (by norm_num [ctx50, imgBlack1])
      (by norm_num [ctx50, imgBlack1]),
    (c7_pack565_roundtrip ctx50 imgBlack1 (2/5) 0 0).2.2⟩
